import Mathlib

/-!
Verification of pinfinder (github.com/gwatts/pinfinder) against its
natural-language specification.

The Go sources are shallowly embedded below:
* byte sequences are `List Nat` (each entry < 256, maintained by masking);
* 32-bit machine arithmetic is `Nat` arithmetic reduced `% 2^32`;
* the SHA-1 / HMAC-SHA1 / PBKDF2 pipeline used by `findPIN` follows
  Go's `crypto/sha1`, `crypto/hmac` and `golang.org/x/crypto/pbkdf2`;
* the concurrent brute-force search `findPIN` is embedded sequentially in
  ascending candidate order (the spec's uniqueness invariant makes the
  worker race immaterial), and its per-worker range partitioning is
  embedded separately and verified on its own;
* filesystem-dependent functions (`loadBackup`, `loadBackups`, `decrypt`)
  become functions over an explicit model of the directory contents;
* the mutable password cache (`prompted` / `cachepw` globals) becomes
  explicit state passing.
-/

/-! ## 32-bit word helpers -/

/-- Reduce a natural number to a 32-bit machine word. -/
def w32 (n : Nat) : Nat := n % 4294967296

/-- Left rotation of a 32-bit word by `s` bits (0 ≤ s < 32). -/
def rotl32 (x s : Nat) : Nat := w32 (x <<< s) ||| (x >>> (32 - s))

/-- Bitwise complement of a 32-bit word. -/
def not32 (x : Nat) : Nat := x ^^^ 4294967295

/-- Big-endian 4-byte serialisation of a 32-bit word. -/
def be32 (x : Nat) : List Nat :=
  [x >>> 24 % 256, x >>> 16 % 256, x >>> 8 % 256, x % 256]

/-- Big-endian 8-byte serialisation of a 64-bit word. -/
def be64 (x : Nat) : List Nat :=
  [x >>> 56 % 256, x >>> 48 % 256, x >>> 40 % 256, x >>> 32 % 256,
   x >>> 24 % 256, x >>> 16 % 256, x >>> 8 % 256, x % 256]

/-! ## SHA-1 (Go `crypto/sha1`, FIPS 180-1) -/

/-- Group a byte list into big-endian 32-bit words. -/
def toWordsBE : List Nat → List Nat
  | a :: b :: c :: d :: rest => (((a * 256 + b) * 256 + c) * 256 + d) :: toWordsBE rest
  | _ => []

/-- Extend the 16 message words to 80 schedule words:
`w[i] = rotl1 (w[i-3] xor w[i-8] xor w[i-14] xor w[i-16])`. -/
def sha1Extend : Nat → Array Nat → Array Nat
  | 0, ws => ws
  | fuel + 1, ws =>
      let i := ws.size
      let nw := rotl32 (ws.getD (i - 3) 0 ^^^ ws.getD (i - 8) 0 ^^^
                        ws.getD (i - 14) 0 ^^^ ws.getD (i - 16) 0) 1
      sha1Extend fuel (ws.push nw)

/-- The SHA-1 round function for round `t`. -/
def sha1F (t b c d : Nat) : Nat :=
  if t < 20 then (b &&& c) ||| (not32 b &&& d)
  else if t < 40 then b ^^^ c ^^^ d
  else if t < 60 then (b &&& c) ||| (b &&& d) ||| (c &&& d)
  else b ^^^ c ^^^ d

/-- The SHA-1 round constant for round `t`. -/
def sha1K (t : Nat) : Nat :=
  if t < 20 then 0x5A827999
  else if t < 40 then 0x6ED9EBA1
  else if t < 60 then 0x8F1BBCDC
  else 0xCA62C1D6

/-- The five-word SHA-1 working state. -/
structure Sha1State where
  a : Nat
  b : Nat
  c : Nat
  d : Nat
  e : Nat
deriving Repr, DecidableEq

/-- One SHA-1 round: rotate the state through the round function. -/
def sha1Round (w : Array Nat) (st : Sha1State) (t : Nat) : Sha1State :=
  let tmp := w32 (rotl32 st.a 5 + sha1F t st.b st.c st.d + st.e + sha1K t + w.getD t 0)
  ⟨tmp, st.a, rotl32 st.b 30, st.c, st.d⟩

/-- Compress one 64-byte block into the running state. -/
def sha1Block (st : Sha1State) (block : List Nat) : Sha1State :=
  let w := sha1Extend 64 (Array.mk (toWordsBE block))
  let f := (List.range 80).foldl (sha1Round w) st
  ⟨w32 (st.a + f.a), w32 (st.b + f.b), w32 (st.c + f.c), w32 (st.d + f.d), w32 (st.e + f.e)⟩

/-- SHA-1 padding: append `0x80`, zero bytes to 56 mod 64, then the 64-bit
big-endian bit length. -/
def sha1Pad (msg : List Nat) : List Nat :=
  let len := msg.length
  let zeros := (119 - len % 64) % 64
  msg ++ 0x80 :: List.replicate zeros 0 ++ be64 (len * 8)

/-- Split a byte list into its first `n` 64-byte blocks. -/
def takeBlocks : Nat → List Nat → List (List Nat)
  | 0, _ => []
  | n + 1, l => l.take 64 :: takeBlocks n (l.drop 64)

/-- The SHA-1 initial state. -/
def sha1Init : Sha1State := ⟨0x67452301, 0xEFCDAB89, 0x98BADCFE, 0x10325476, 0xC3D2E1F0⟩

/-- SHA-1 of a byte sequence, producing the 20-byte digest. -/
def sha1 (msg : List Nat) : List Nat :=
  let padded := sha1Pad msg
  let st := (takeBlocks (padded.length / 64) padded).foldl sha1Block sha1Init
  be32 st.a ++ be32 st.b ++ be32 st.c ++ be32 st.d ++ be32 st.e

/-! ## HMAC-SHA1 (Go `crypto/hmac`) and PBKDF2 (`golang.org/x/crypto/pbkdf2`) -/

/-- HMAC-SHA1: a key longer than the 64-byte block is first hashed, the key is
zero-padded to 64 bytes, and nested hashes are taken with the `0x36`/`0x5c`
padded keys. -/
def hmacSha1 (key msg : List Nat) : List Nat :=
  let k0 := if 64 < key.length then sha1 key else key
  let kp := k0 ++ List.replicate (64 - k0.length) 0
  let inner := sha1 (kp.map (· ^^^ 0x36) ++ msg)
  sha1 (kp.map (· ^^^ 0x5c) ++ inner)

/-- The PBKDF2 inner loop: starting from `U₁`, iterate `U ← PRF(U)` a further
`fuel` times, XOR-accumulating into `T`. -/
def pbkdf2Iter (password : List Nat) : Nat → List Nat → List Nat → List Nat
  | 0, t, _ => t
  | fuel + 1, t, u =>
      let u' := hmacSha1 password u
      pbkdf2Iter password fuel (List.zipWith (· ^^^ ·) t u') u'

/-- One PBKDF2 output block `T(blockIdx) = U₁ xor … xor U_iter`. -/
def pbkdf2BlockT (password salt : List Nat) (iter blockIdx : Nat) : List Nat :=
  let u1 := hmacSha1 password (salt ++ be32 blockIdx)
  pbkdf2Iter password (iter - 1) u1 u1

/-- PBKDF2 key derivation, as in `pbkdf2.Key`: `⌈keyLen/20⌉` HMAC-SHA1 blocks,
truncated to `keyLen` bytes.  A requested length of zero yields no blocks and
an empty derived key. -/
def pbkdf2Key (password salt : List Nat) (iter keyLen : Nat) : List Nat :=
  let numBlocks := (keyLen + 19) / 20
  (((List.range numBlocks).map fun i => pbkdf2BlockT password salt iter (i + 1)).flatten).take keyLen

/-! ## PIN formatting and the sequential search -/

/-- The size of the searched keyspace (`maxPIN` in the source). -/
def maxPIN : Nat := 10000

/-- The ASCII bytes of `fmt.Sprintf("%04d", j)` for `j < 10000`:
four zero-padded decimal digits. -/
def pinBytes (j : Nat) : List Nat :=
  [48 + j / 1000 % 10, 48 + j / 100 % 10, 48 + j / 10 % 10, 48 + j % 10]

/-- The guess string `fmt.Sprintf("%04d", j)` for `j < 10000`. -/
def pinString (j : Nat) : String :=
  String.mk ((pinBytes j).map Char.ofNat)

/-- Whether candidate `j` matches the stored credential: its PBKDF2 derivation
(1000 iterations, derived length `key.length`) is byte-equal to `key`. -/
def pinMatches (key salt : List Nat) (j : Nat) : Bool :=
  pbkdf2Key (pinBytes j) salt 1000 key.length == key

/-- Sequential embedding of `findPIN`: scan candidates `0 ≤ j < 10000` in
ascending order and return the first whose derived key equals `key`; if the
keyspace is exhausted, fail with the source's error message.  (The Go original
splits the same candidate set over `runtime.NumCPU()` goroutines; the range
partition itself is embedded and verified separately below.) -/
def findPINseq (key salt : List Nat) : Except String String :=
  match (List.range maxPIN).find? (pinMatches key salt) with
  | some j => Except.ok (pinString j)
  | none => Except.error "failed to calculate PIN"

/-! ## The worker range partition of `findPIN`

The Go loop computes, for `W = runtime.NumCPU()` workers, `perCPU = 10000/W`
and assigns worker `i` the half-open range `[start, end)` where `start`
advances by `perCPU` each iteration and `end` accumulates `perCPU`, except
that the last worker's `end` is forced to `maxPIN`. -/

/-- The per-worker stride `perCPU := maxPIN / runtime.NumCPU()`. -/
def perCPU (w : Nat) : Nat := maxPIN / w

/-- State-passing embedding of the goroutine-spawning loop of `findPIN`:
`fuel` counts the remaining iterations, `i` is the loop index and `s`, `e`
are the Go variables `start` and `end`. -/
def goRangesAux (w p : Nat) : Nat → Nat → Nat → Nat → List (Nat × Nat)
  | 0, _, _, _ => []
  | fuel + 1, i, s, e =>
      let e' := if i = w - 1 then maxPIN else e + p
      (s, e') :: goRangesAux w p fuel (i + 1) (s + p) e'

/-- The `[start, end)` pairs handed to the `w` workers of `findPIN`. -/
def goRanges (w : Nat) : List (Nat × Nat) := goRangesAux w (perCPU w) w 0 0 0

/-- Closed form of worker `i`'s range. -/
def workerRange (w i : Nat) : Nat × Nat :=
  (i * perCPU w, if i = w - 1 then maxPIN else (i + 1) * perCPU w)

/-- How many of the `w` worker ranges contain the candidate `n`. -/
def coverCount (w n : Nat) : Nat :=
  (goRanges w).countP fun r => decide (r.1 ≤ n ∧ n < r.2)

theorem goRangesAux_eq (w p : Nat) :
    ∀ fuel i, 0 < fuel → i + fuel = w →
      goRangesAux w p fuel i (i * p) (i * p) =
        (List.range fuel).map fun k =>
          ((i + k) * p, if i + k = w - 1 then maxPIN else (i + k + 1) * p) := by
  intro fuel
  induction fuel with
  | zero => intro i h; exact absurd h (lt_irrefl 0)
  | succ f ih =>
    intro i _ hiw
    cases f with
    | zero =>
      have hr1 : List.range 1 = [0] := rfl
      simp only [goRangesAux, hr1, List.map_cons, List.map_nil, Nat.add_zero, Nat.succ_mul]
    | succ g =>
      have hine : i ≠ w - 1 := by omega
      have hstep : goRangesAux w p (g + 1 + 1) i (i * p) (i * p) =
          (i * p, i * p + p) :: goRangesAux w p (g + 1) (i + 1) ((i + 1) * p) ((i + 1) * p) := by
        simp only [goRangesAux, if_neg hine, Nat.succ_mul]
      have hr : List.range (g + 1 + 1) = 0 :: (List.range (g + 1)).map Nat.succ :=
        List.range_succ_eq_map (g + 1)
      rw [hstep, ih (i + 1) (Nat.succ_pos g) (by omega), hr, List.map_cons, List.map_map]
      congr 1
      · simp only [Nat.add_zero, if_neg hine, Nat.succ_mul]
      · apply List.map_congr_left
        intro k _
        simp only [Function.comp_apply, Nat.succ_eq_add_one]
        have hk : i + 1 + k = i + (k + 1) := by omega
        rw [hk]

theorem goRanges_eq {w : Nat} (hw : 1 ≤ w) :
    goRanges w = (List.range w).map (workerRange w) := by
  have h := goRangesAux_eq w (perCPU w) w 0 hw (Nat.zero_add w)
  simp only [Nat.zero_mul, Nat.zero_add] at h
  rw [goRanges, h]
  apply List.map_congr_left
  intro k _
  simp [workerRange]

/-- Each candidate below `maxPIN` lies in a worker's range, given by the
stride quotient clipped to the last worker. -/
theorem workerRange_mem_iff {w n : Nat} (hw : 1 ≤ w) (hw64 : w ≤ 64)
    (hn : n < maxPIN) (i : Nat) (hi : i < w) :
    ((workerRange w i).1 ≤ n ∧ n < (workerRange w i).2) ↔
      i = min (n / perCPU w) (w - 1) := by
  have hp : 1 ≤ perCPU w := by
    rw [perCPU]
    exact (Nat.one_le_div_iff (by omega)).mpr (by rw [maxPIN]; omega)
  set p := perCPU w with hpdef
  by_cases hiw : i = w - 1
  · subst hiw
    simp only [workerRange, if_pos rfl]
    constructor
    · rintro ⟨h1, _⟩
      have : w - 1 ≤ n / p := (Nat.le_div_iff_mul_le hp).mpr h1
      omega
    · intro h
      have hle : w - 1 ≤ n / p := by omega
      have h1 : (w - 1) * p ≤ n / p * p := Nat.mul_le_mul_right p hle
      exact ⟨le_trans h1 (Nat.div_mul_le_self n p), hn⟩
  · have hiw' : i < w - 1 := by omega
    simp only [workerRange, if_neg hiw]
    constructor
    · rintro ⟨h1, h2⟩
      have hub : n / p < i + 1 := (Nat.div_lt_iff_lt_mul hp).mpr h2
      have hlb : i ≤ n / p := (Nat.le_div_iff_mul_le hp).mpr h1
      omega
    · intro h
      have hdiv : n / p = i := by omega
      constructor
      · calc i * p = n / p * p := by rw [hdiv]
          _ ≤ n := Nat.div_mul_le_self n p
      · have hself : n < (n / p + 1) * p :=
          (Nat.div_lt_iff_lt_mul hp).mp (Nat.lt_succ_self _)
        calc n < (n / p + 1) * p := hself
          _ ≤ (i + 1) * p := Nat.mul_le_mul_right p (by omega)

/-- C1: for every worker count `W` in [1, 64], the sub-ranges `[start, end)`
that `findPIN` assigns to its `W` workers are pairwise disjoint and cover
exactly the integer range `[0, 10000)`: every candidate below `maxPIN` lies
in exactly one worker's range and no range contains anything else. -/
theorem findPIN_partition_exact (w n : Nat) (h1 : 1 ≤ w) (h2 : w ≤ 64) :
    coverCount w n = if n < maxPIN then 1 else 0 := by
  rw [coverCount, goRanges_eq h1, List.countP_map]
  by_cases hn : n < maxPIN
  · rw [if_pos hn]
    have hi0w : min (n / perCPU w) (w - 1) < w := by
      have := min_le_right (n / perCPU w) (w - 1)
      omega
    have hcong : ∀ i ∈ List.range w,
        ((fun r => decide (r.1 ≤ n ∧ n < r.2)) ∘ workerRange w) i = true ↔
          (i == min (n / perCPU w) (w - 1)) = true := by
      intro i hi
      rw [List.mem_range] at hi
      simp only [Function.comp_apply, decide_eq_true_eq, beq_iff_eq]
      exact workerRange_mem_iff h1 h2 hn i hi
    rw [List.countP_congr hcong]
    have hc : (List.range w).countP (· == min (n / perCPU w) (w - 1)) =
        (List.range w).count (min (n / perCPU w) (w - 1)) := rfl
    rw [hc]
    exact List.count_eq_one_of_mem (List.nodup_range w) (List.mem_range.mpr hi0w)
  · rw [if_neg hn]
    apply List.countP_eq_zero.mpr
    intro i hi
    rw [List.mem_range] at hi
    simp only [Function.comp_apply, decide_eq_true_eq, not_and, not_lt]
    intro _
    by_cases hiw : i = w - 1
    · simp only [workerRange, if_pos hiw]
      omega
    · simp only [workerRange, if_neg hiw]
      have hmul : (i + 1) * perCPU w ≤ w * perCPU w :=
        Nat.mul_le_mul_right _ (by omega)
    
      have hbound : w * perCPU w ≤ maxPIN := by
        rw [perCPU, Nat.mul_comm]
        exact Nat.div_mul_le_self maxPIN w
      omega

/-- Witness: at `W = 3` workers, candidate 5000 is covered exactly once. -/
theorem findPIN_partition_exact_witness :
    coverCount 3 5000 = if 5000 < maxPIN then 1 else 0 :=
  findPIN_partition_exact 3 5000 (by decide) (by decide)

/-! ## findPIN on malformed credentials -/

theorem pbkdf2Key_len_zero (password salt : List Nat) (iter : Nat) :
    pbkdf2Key password salt iter 0 = [] := rfl

theorem pinMatches_nil_key (salt : List Nat) (j : Nat) :
    pinMatches [] salt j = true := rfl

theorem findPINseq_nil_key (salt : List Nat) :
    findPINseq [] salt = Except.ok "0000" := by
  have hrange : List.range maxPIN = 0 :: (List.range 9999).map Nat.succ := by
    rw [show maxPIN = 9999 + 1 from rfl]
    exact List.range_succ_eq_map 9999
  have h : (List.range maxPIN).find? (pinMatches [] salt) = some 0 := by
    rw [hrange]
    exact List.find?_cons_of_pos _ (pinMatches_nil_key salt 0)
  unfold findPINseq
  rw [h]
  rfl

/-- C2 counterexample: applied to an empty key and an empty salt, `findPIN`
does not fail with a configuration-error signal — it immediately reports the
spurious match "0000" with no error at all. -/
theorem findPIN_empty_credential_no_error :
    findPINseq [] [] = Except.ok "0000" ∧ ∀ e, findPINseq [] [] ≠ Except.error e := by
  refine ⟨findPINseq_nil_key [], fun e h => ?_⟩
  rw [findPINseq_nil_key []] at h
  exact Except.noConfusion h

/-- C2 (amended): `findPIN` performs no validation of its credential.  Its
only error outcome is the keyspace-exhausted message "failed to calculate
PIN"; there is no configuration-error signal, and an empty key is not
rejected but matches the very first candidate, so the search returns
"0000" with no error. -/
theorem findPIN_no_config_error :
    (∀ key salt : List Nat,
        (∃ j, j < maxPIN ∧ findPINseq key salt = Except.ok (pinString j)) ∨
          findPINseq key salt = Except.error "failed to calculate PIN") ∧
      ∀ salt : List Nat, findPINseq [] salt = Except.ok "0000" := by
  constructor
  · intro key salt
    cases h : (List.range maxPIN).find? (pinMatches key salt) with
    | none =>
      refine Or.inr ?_
      unfold findPINseq
      rw [h]
    | some j =>
      refine Or.inl ⟨j, List.mem_range.mp (List.mem_of_find?_eq_some h), ?_⟩
      unfold findPINseq
      rw [h]
  · exact findPINseq_nil_key

/-- C10: for every salt, `findPIN` applied to an empty key never reaches the
exhausted outcome: the PBKDF2 derived key of requested length zero is
byte-equal to the empty key for every candidate (in particular the first
candidate of each worker), so the sequential embedding reports the match
("0000", no error) immediately. -/
theorem findPIN_empty_key_immediate (salt : List Nat) :
    (∀ j : Nat, pbkdf2Key (pinBytes j) salt 1000 0 = [] ∧ pinMatches [] salt j = true) ∧
      findPINseq [] salt = Except.ok "0000" :=
  ⟨fun j => ⟨rfl, pinMatches_nil_key salt j⟩, findPINseq_nil_key salt⟩

/-! ## BackupCatalog ordering (`backups.Less` / `loadBackups`)

`loadBackups` appends one record per directory containing parseable
`Info.plist` and `Manifest.plist` files, in enumeration order, then runs
`sort.Sort(sort.Reverse(b))` where `Less` compares `Info.LastBackup` with
`Before`.  Go's `sort.Sort` is not stable; for slices of at most 12
elements its `quickSort` runs a single ShellSort pass with gap 6 followed
by an insertion sort, and that pipeline is embedded below over explicit
index/swap operations.  (Larger slices take the quicksort path, which is
also unstable; the claims' scenarios — three and seven records — fall in
the small-slice regime modelled here.) -/

/-- A discovered backup record, reduced to the fields the catalog order
depends on: `dirId` stands for the directory identity (discovery order)
and `time` for `Info.LastBackup`. -/
structure BackupRec where
  dirId : Nat
  time : Nat
deriving DecidableEq, Repr

/-- One comparison `data.Less(i, j)` of the sorted data: `sort.Reverse`
flips the indices, and the underlying `Less` compares last-backup times
with the strict `Before`, so position `j`'s time is compared below
position `i`'s. -/
def lessRev (l : List BackupRec) (i j : Nat) : Bool :=
  decide ((l.getD j ⟨0, 0⟩).time < (l.getD i ⟨0, 0⟩).time)

/-- One `data.Swap(i, j)`. -/
def swapL (l : List BackupRec) (i j : Nat) : List BackupRec :=
  match l.get? i, l.get? j with
  | some x, some y => (l.set i y).set j x
  | _, _ => l

/-- The gap-6 ShellSort pass of Go's `quickSort` on a short slice:
`for i := a+6; i < b; i++ { if data.Less(i, i-6) { data.Swap(i, i-6) } }`
(`fuel` counts the remaining iterations, `i` is the loop index). -/
def shellPassAux : Nat → Nat → List BackupRec → List BackupRec
  | 0, _, l => l
  | fuel + 1, i, l =>
      shellPassAux fuel (i + 1) (if lessRev l i (i - 6) then swapL l i (i - 6) else l)

/-- The ShellSort pass over the whole slice (`a = 0`, `b = len`); for
fewer than seven records the loop body never runs. -/
def shellPass (l : List BackupRec) : List BackupRec :=
  shellPassAux (l.length - 6) 6 l

/-- The inner loop of Go's `insertionSort`:
`for j := i; j > a && data.Less(j, j-1); j-- { data.Swap(j, j-1) }`. -/
def insertAux : Nat → Nat → List BackupRec → List BackupRec
  | 0, _, l => l
  | fuel + 1, j, l =>
      if decide (0 < j) && lessRev l j (j - 1) then
        insertAux fuel (j - 1) (swapL l j (j - 1))
      else l

/-- The outer loop of Go's `insertionSort`: `for i := a+1; i < b; i++`. -/
def goInsertionAux : Nat → Nat → List BackupRec → List BackupRec
  | 0, _, l => l
  | fuel + 1, i, l => goInsertionAux fuel (i + 1) (insertAux i i l)

/-- Go's `insertionSort(data, 0, len)`. -/
def goInsertionSort (l : List BackupRec) : List BackupRec :=
  goInsertionAux (l.length - 1) 1 l

/-- `sort.Sort(sort.Reverse(b))` on a slice of at most 12 backup records:
the ShellSort pass with gap 6, then the insertion sort (the body of Go's
`quickSort` once `b - a > 12` fails). -/
def goSortSmall (l : List BackupRec) : List BackupRec :=
  goInsertionSort (shellPass l)

/-- Embedding of `loadBackups` over a scan of the sync directory: `none`
entries are directories whose metadata failed to load (skipped), `some`
entries are the valid records in filesystem enumeration order; the valid
records are collected and sorted with `sort.Sort(sort.Reverse(b))`
(modelled for scans of at most 12 valid records, the regime of the claims
below). -/
def loadBackupsModel (scanned : List (Option BackupRec)) : List BackupRec :=
  goSortSmall (scanned.filterMap id)

/-- Closed form of the sort on three records: the ShellSort pass is a
no-op and the insertion sort orders by time descending. -/
theorem goSortSmall_three (x y z : BackupRec) :
    goSortSmall [x, y, z] =
      if x.time < y.time then
        if x.time < z.time then
          if y.time < z.time then [z, y, x] else [y, z, x]
        else [y, x, z]
      else
        if y.time < z.time then
          if x.time < z.time then [z, x, y] else [x, z, y]
        else [x, y, z] := by
  by_cases h1 : x.time < y.time <;> by_cases h2 : y.time < z.time <;>
    by_cases h3 : x.time < z.time <;>
    simp [goSortSmall, shellPass, shellPassAux, goInsertionSort, goInsertionAux,
          insertAux, swapL, lessRev, List.getD, List.get?, h1, h2, h3]

/-- The seven-directory scan of the stability counterexample: last-backup
times 1, 9, 8, 5, 7, 6, 5, with the two time-5 records discovered as
`dirId` 3 and then 6. -/
def tieScan : List (Option BackupRec) :=
  [some ⟨0, 1⟩, some ⟨1, 9⟩, some ⟨2, 8⟩, some ⟨3, 5⟩, some ⟨4, 7⟩,
   some ⟨5, 6⟩, some ⟨6, 5⟩]

/-- C3 counterexample: `sort.Sort` is not stable, so records with equal
`lastBackupTime` do not keep their discovery order.  On `tieScan` the
gap-6 ShellSort pass swaps positions 0 and 6 (times 1 and 5) before the
insertion sort, so the record discovered second (`dirId = 6`) ends up
ahead of the equal-time record discovered first (`dirId = 3`). -/
theorem loadBackups_tie_reordered :
    loadBackupsModel tieScan =
      [⟨1, 9⟩, ⟨2, 8⟩, ⟨4, 7⟩, ⟨5, 6⟩, ⟨6, 5⟩, ⟨3, 5⟩, ⟨0, 1⟩] ∧
    (loadBackupsModel tieScan).filter (fun b => b.time == 5) =
      [⟨6, 5⟩, ⟨3, 5⟩] ∧
    (tieScan.filterMap id).filter (fun b => b.time == 5) =
      [⟨3, 5⟩, ⟨6, 5⟩] ∧
    ([⟨6, 5⟩, ⟨3, 5⟩] : List BackupRec) ≠ [⟨3, 5⟩, ⟨6, 5⟩] := by
  decide

/-- C3 (amended): `loadBackups` returns the valid records ordered by
last-backup time descending in the claim's scenario — for any three valid
backup directories with pairwise distinct `lastBackupTime` values, in any
filesystem enumeration order, the output is a strictly descending
permutation of the discovered records.  Records with equal
`lastBackupTime` are not guaranteed to keep their discovery order:
`sort.Sort` is unstable (see the counterexample above). -/
theorem loadBackups_three_desc (x y z : BackupRec)
    (scanned : List (Option BackupRec))
    (hscan : scanned.filterMap id = [x, y, z])
    (hxy : x.time ≠ y.time) (hxz : x.time ≠ z.time) (hyz : y.time ≠ z.time) :
    (loadBackupsModel scanned).Pairwise (fun a b => b.time < a.time) ∧
      List.Perm (loadBackupsModel scanned) [x, y, z] := by
  rw [loadBackupsModel, hscan, goSortSmall_three]
  rcases Nat.lt_or_ge x.time y.time with h1 | h1
  · rcases Nat.lt_or_ge x.time z.time with h3 | h3
    · rcases Nat.lt_or_ge y.time z.time with h2 | h2
      · rw [if_pos h1, if_pos h3, if_pos h2]
        refine ⟨by simp [List.pairwise_cons]; omega, ?_⟩
        exact (List.Perm.swap y z [x]).trans
          ((List.Perm.cons y (List.Perm.swap x z [])).trans (List.Perm.swap x y [z]))
      · rw [if_pos h1, if_pos h3, if_neg (not_lt.mpr h2)]
        refine ⟨by simp [List.pairwise_cons]; omega, ?_⟩
        exact (List.Perm.cons y (List.Perm.swap x z [])).trans (List.Perm.swap x y [z])
    · rw [if_pos h1, if_neg (not_lt.mpr h3)]
      refine ⟨by simp [List.pairwise_cons]; omega, ?_⟩
      exact List.Perm.swap x y [z]
  · rcases Nat.lt_or_ge y.time z.time with h2 | h2
    · rcases Nat.lt_or_ge x.time z.time with h3 | h3
      · rw [if_neg (not_lt.mpr h1), if_pos h2, if_pos h3]
        refine ⟨by simp [List.pairwise_cons]; omega, ?_⟩
        exact (List.Perm.swap x z [y]).trans (List.Perm.cons x (List.Perm.swap y z []))
      · rw [if_neg (not_lt.mpr h1), if_pos h2, if_neg (not_lt.mpr h3)]
        refine ⟨by simp [List.pairwise_cons]; omega, ?_⟩
        exact List.Perm.cons x (List.Perm.swap y z [])
    · rw [if_neg (not_lt.mpr h1), if_neg (not_lt.mpr h2)]
      refine ⟨by simp [List.pairwise_cons]; omega, ?_⟩
      exact List.Perm.refl _

/-- Witness: a three-directory scan with distinct times, interleaved with
an invalid directory, comes out strictly descending. -/
theorem loadBackups_three_desc_witness :
    (loadBackupsModel [some ⟨0, 5⟩, none, some ⟨1, 9⟩, some ⟨2, 7⟩]).Pairwise
        (fun a b => b.time < a.time) ∧
      List.Perm (loadBackupsModel [some ⟨0, 5⟩, none, some ⟨1, 9⟩, some ⟨2, 7⟩])
        [⟨0, 5⟩, ⟨1, 9⟩, ⟨2, 7⟩] :=
  loadBackups_three_desc ⟨0, 5⟩ ⟨1, 9⟩ ⟨2, 7⟩
    [some ⟨0, 5⟩, none, some ⟨1, 9⟩, some ⟨2, 7⟩]
    (by decide) (by decide) (by decide) (by decide)

/-! ## Backup records, `loadBackup` and `decrypt`

`loadBackup` (pinfinder.go) reads `Info.plist` and `Manifest.plist`
(returning nil if either fails to parse), rejects iOS 12 backups, resolves
the restriction file at `<dir>/<name>` falling back to
`<dir>/<name[:2]>/<name>`, and then either decodes the plist directly or
hands an encrypted backup to `decrypt` (encrypted.go).  The filesystem and
the external unlocker are modelled by an explicit per-directory record. -/

/-- Status strings of the source. -/
def msgIsEncrypted : String := "backup is encrypted"

def msgNoPasscode : String := "none"

def msgIncorrectPassword : String := "incorrect encryption password"

def msgNoPassword : String := "need encryption password"

def msgIos12 : String := "iOS 12 not supported yet :-("

/-- The fixed content identifier of the restriction plist. -/
def restrictionsPlistName : String := "398bc9c2aeeab4cb0c12ada0f52eea12cf14f40b"

/-- Embedding of `strings.HasPrefix` as a character-list prefix test. -/
def strStarts (p s : String) : Bool := p.toList.isPrefixOf s.toList

/-- Go string slicing `s[:n]` (the sliced strings here are all ASCII, so
character and byte slicing coincide). -/
def strTake (s : String) (n : Nat) : String := String.mk (s.toList.take n)

/-- Dynamically-typed value of the manifest's `IsEncrypted` field
(a Go `interface{}`): integer, unsigned integer, boolean, absent (`nil`),
or any other dynamic type. -/
inductive PlistValue
  | int (n : Int)
  | uint (n : Nat)
  | bool (b : Bool)
  | missing
  | other
deriving DecidableEq, Repr

/-- Embedding of `backup.isEncrypted`: a non-zero integer or a true boolean is encrypted;
`nil` (absent field) and anything else is not. -/
def isEncrypted : PlistValue → Bool
  | .int n => n != 0
  | .uint n => n != 0
  | .bool b => b
  | .missing => false
  | .other => false

/-- The fields of `Info.plist` carried by a backup record. -/
structure InfoData where
  LastBackup : Nat
  DisplayName : String
  ProductName : String
  ProductType : String
  ProductVersion : String
deriving DecidableEq, Repr

/-- The manifest data carried by a backup record. -/
structure ManifestData where
  IsEncrypted : PlistValue
deriving DecidableEq, Repr

/-- The decoded restriction credential. -/
structure RestrictionsData where
  Key : List Nat
  Salt : List Nat
deriving DecidableEq, Repr

/-- The Go `backup` struct. -/
structure BackupData where
  Path : String
  Status : String
  RestrictionsPath : String
  Info : InfoData
  Manifest : ManifestData
  Restrictions : RestrictionsData
deriving DecidableEq, Repr

/-- What the external unlocker (`iosbackup`) does for one backup directory,
one constructor per early-return branch of `decrypt`. -/
inductive UnlockOutcome
  | openFail (msg : String)
  | wrongPassword
  | loadFail (msg : String)
  | recordAbsent
  | readFail
  | decodeFail
  | unlocked (r : RestrictionsData)
deriving DecidableEq, Repr

/-- Embedding of `decrypt` from encrypted.go: with no password the record is left with
the encrypted status; otherwise the unlocker's outcome decides the status,
and only a successful decode installs the credential. -/
def decrypt (pw : String) (u : UnlockOutcome) (b : BackupData) : BackupData :=
  if pw = "" then { b with Status := msgIsEncrypted }
  else match u with
    | .openFail m => { b with Status := "Failed to open backup: " ++ m }
    | .wrongPassword => { b with Status := msgIncorrectPassword }
    | .loadFail m => { b with Status := m }
    | .recordAbsent => { b with Status := msgNoPassword }
    | .readFail => { b with Status := msgIncorrectPassword }
    | .decodeFail => { b with Status := msgIncorrectPassword }
    | .unlocked r => { b with Restrictions := r }

instance {ε α : Type} [DecidableEq ε] [DecidableEq α] : DecidableEq (Except ε α) := fun x y =>
  match x, y with
  | .error e, .error f =>
    if h : e = f then isTrue (by rw [h])
    else isFalse fun hh => h (Except.error.inj hh)
  | .ok a, .ok b =>
    if h : a = b then isTrue (by rw [h])
    else isFalse fun hh => h (Except.ok.inj hh)
  | .error _, .ok _ => isFalse fun hh => Except.noConfusion hh
  | .ok _, .error _ => isFalse fun hh => Except.noConfusion hh

/-- The on-disk content of one candidate backup directory as consumed by
`loadBackup`: decode results of the two metadata plists (`none` = file
missing or unparseable), the restriction-file slots at the two layout
conventions (`none` = no file, `some p` = a file whose plist decode yields
`p`), and the unlocker's behaviour for this directory. -/
structure BackupDirFS where
  infoPlist : Option InfoData
  manifestPlist : Option ManifestData
  topRestrictions : Option (Except String RestrictionsData)
  shardRestrictions : Option (Except String RestrictionsData)
  unlock : UnlockOutcome
deriving DecidableEq, Repr

/-- The restriction-file slot `loadBackup` ends up probing: the top-level
convention if a file is there (`os.Stat` succeeds), else the sharded one. -/
def chosenRestrictions (fs : BackupDirFS) : Option (Except String RestrictionsData) :=
  if fs.topRestrictions.isSome then fs.topRestrictions else fs.shardRestrictions

/-- The `RestrictionsPath` value `loadBackup` records. -/
def chosenPath (backupDir : String) (fs : BackupDirFS) : String :=
  if fs.topRestrictions.isSome then backupDir ++ "/" ++ restrictionsPlistName
  else backupDir ++ "/" ++ strTake restrictionsPlistName 2 ++ "/" ++ restrictionsPlistName

/-- Embedding of `loadBackup`: `none` models the Go nil return (not a valid backup
directory). -/
def loadBackup (backupDir : String) (fs : BackupDirFS) (pw : String) :
    Option BackupData :=
  match fs.infoPlist with
  | none => none
  | some info =>
    match fs.manifestPlist with
    | none => none
    | some man =>
      let b0 : BackupData :=
        { Path := "", Status := "", RestrictionsPath := "",
          Info := info, Manifest := man, Restrictions := ⟨[], []⟩ }
      if strStarts "12." info.ProductVersion then
        some { b0 with Status := msgIos12 }
      else
        let b1 := { b0 with RestrictionsPath := chosenPath backupDir fs,
                            Path := backupDir }
        match chosenRestrictions fs with
        | none => some { b1 with Status := msgNoPasscode }
        | some parsed =>
          if isEncrypted man.IsEncrypted then
            some (decrypt pw fs.unlock b1)
          else
            match parsed with
            | .error e => some { b1 with Status := e }
            | .ok r => some { b1 with Restrictions := r }

/-! ## The password prompt cache (`getpw`) -/

/-- The package-level mutable prompt state (`prompted`, `cachepw`),
passed explicitly. -/
structure PwState where
  prompted : Bool
  cachepw : String
deriving DecidableEq, Repr

/-- The state at process start: not prompted, empty cache. -/
def pwInit : PwState := ⟨false, ""⟩

/-- Embedding of `getpw`, with the string the operator would type supplied as `input`:
returns the password handed to the caller, whether this call prompted, and
the successor state. -/
def getpw (input : String) (s : PwState) : String × Bool × PwState :=
  if s.prompted then (s.cachepw, false, s)
  else (input, true, ⟨true, input⟩)

/-- One `getpw` call per encrypted record processed, collecting the
(returned password, prompted?) pair of each call. -/
def getpwRun : List String → PwState → List (String × Bool) × PwState
  | [], s => ([], s)
  | i :: rest, s =>
    let r := getpw i s
    let out := getpwRun rest r.2.2
    ((r.1, r.2.1) :: out.1, out.2)

/-- C8: the manifest's `IsEncrypted` field classifies the integer 1 and the
boolean true as encrypted, and an entirely absent field as not encrypted. -/
theorem isEncrypted_tolerance :
    isEncrypted (.int 1) = true ∧ isEncrypted (.bool true) = true ∧
      isEncrypted .missing = false := by
  decide

theorem getpwRun_cached (inputs : List String) (s : PwState)
    (h : s.prompted = true) :
    getpwRun inputs s = (inputs.map fun _ => (s.cachepw, false), s) := by
  induction inputs with
  | nil => rfl
  | cons i rest ih => simp [getpwRun, getpw, h, ih]

/-- C9: the password prompt happens at most once per run: from the initial
state, the first `getpw` call prompts and caches the entered string
(possibly empty), and every subsequent call returns the cached value
without prompting again. -/
theorem getpw_prompts_once (i : String) (rest : List String) :
    getpwRun (i :: rest) pwInit =
      ((i, true) :: rest.map (fun _ => (i, false)), (⟨true, i⟩ : PwState)) := by
  have h1 : getpw i pwInit = (i, true, ⟨true, i⟩) := rfl
  have h2 := getpwRun_cached rest ⟨true, i⟩ rfl
  simp [getpwRun, h1, h2]

/-- C4: evaluation of `loadBackup`/`decrypt` on encrypted records.  At the
failing input — password available and accepted by the unlocker, but no
record for the restriction file in the backup manifest — the status is left
at "need encryption password" (`msgNoPassword`), not the no-passcode-stored
status `msgNoPasscode` ("none") that the specification maps this outcome
to.  The other three outcome mappings evaluate as specified: no password
gives the encrypted status, a wrong password gives the incorrect-password
status, and a successful unlock installs the decoded credential. -/
theorem loadBackup_recordAbsent_divergence :
    (loadBackup "dir"
        ⟨some ⟨0, "", "", "", "11.0"⟩, some ⟨.bool true⟩,
          some (.ok ⟨[1], [2]⟩), none, .recordAbsent⟩ "secret").map
        (fun b => b.Status) = some msgNoPassword ∧
      msgNoPassword ≠ msgNoPasscode ∧
      (loadBackup "dir"
          ⟨some ⟨0, "", "", "", "11.0"⟩, some ⟨.bool true⟩,
            some (.ok ⟨[1], [2]⟩), none, .recordAbsent⟩ "").map
          (fun b => b.Status) = some msgIsEncrypted ∧
      (loadBackup "dir"
          ⟨some ⟨0, "", "", "", "11.0"⟩, some ⟨.bool true⟩,
            some (.ok ⟨[1], [2]⟩), none, .wrongPassword⟩ "secret").map
          (fun b => b.Status) = some msgIncorrectPassword ∧
      (loadBackup "dir"
          ⟨some ⟨0, "", "", "", "11.0"⟩, some ⟨.bool true⟩,
            some (.ok ⟨[1], [2]⟩), none, .unlocked ⟨[3], [4]⟩⟩ "secret").map
          (fun b => b.Restrictions) = some ⟨[3], [4]⟩ := by
  decide

/-- C7: `loadBackup` probes the top-level path first and falls back to the
two-character-prefix shard; a credential file present only in the shard
yields the same decoded key/salt as one present at the top level, and the
recorded path is the sharded respectively top-level location. -/
theorem loadBackup_shard_fallback (dir pw : String) (info : InfoData)
    (man : ManifestData) (c : RestrictionsData) (u : UnlockOutcome)
    (other : Option (Except String RestrictionsData))
    (hv : strStarts "12." info.ProductVersion = false)
    (henc : isEncrypted man.IsEncrypted = false) :
    (loadBackup dir ⟨some info, some man, none, some (.ok c), u⟩ pw).map
        (fun b => b.Restrictions) = some c ∧
    (loadBackup dir ⟨some info, some man, some (.ok c), other, u⟩ pw).map
        (fun b => b.Restrictions) = some c ∧
    (loadBackup dir ⟨some info, some man, none, some (.ok c), u⟩ pw).map
        (fun b => b.RestrictionsPath) =
      some (dir ++ "/" ++ strTake restrictionsPlistName 2 ++ "/" ++ restrictionsPlistName) ∧
    (loadBackup dir ⟨some info, some man, some (.ok c), other, u⟩ pw).map
        (fun b => b.RestrictionsPath) =
      some (dir ++ "/" ++ restrictionsPlistName) := by
  simp [loadBackup, chosenRestrictions, chosenPath, hv, henc]

/-- Witness: a plain unencrypted backup on iOS 10, with the credential file
in the shard respectively at top level. -/
theorem loadBackup_shard_fallback_witness :
    (loadBackup "d" ⟨some ⟨0, "", "", "", "10.0"⟩, some ⟨.missing⟩, none,
        some (.ok ⟨[1], [2]⟩), .recordAbsent⟩ "").map
        (fun b => b.Restrictions) = some ⟨[1], [2]⟩ ∧
    (loadBackup "d" ⟨some ⟨0, "", "", "", "10.0"⟩, some ⟨.missing⟩,
        some (.ok ⟨[1], [2]⟩), none, .recordAbsent⟩ "").map
        (fun b => b.Restrictions) = some ⟨[1], [2]⟩ ∧
    (loadBackup "d" ⟨some ⟨0, "", "", "", "10.0"⟩, some ⟨.missing⟩, none,
        some (.ok ⟨[1], [2]⟩), .recordAbsent⟩ "").map
        (fun b => b.RestrictionsPath) =
      some ("d" ++ "/" ++ strTake restrictionsPlistName 2 ++ "/" ++ restrictionsPlistName) ∧
    (loadBackup "d" ⟨some ⟨0, "", "", "", "10.0"⟩, some ⟨.missing⟩,
        some (.ok ⟨[1], [2]⟩), none, .recordAbsent⟩ "").map
        (fun b => b.RestrictionsPath) =
      some ("d" ++ "/" ++ restrictionsPlistName) :=
  loadBackup_shard_fallback "d" "" ⟨0, "", "", "", "10.0"⟩ ⟨.missing⟩
    ⟨[1], [2]⟩ .recordAbsent none (by decide) (by decide)

/-! ## The credential invariant of `loadBackup` -/

/-- Specification-side reading of "a readable, well-formed restriction file
was found": the directory is a valid, supported backup, a restriction file
is present at one of the two layout conventions, and the content the
locator extracts — the plist itself for unencrypted backups, the unlocker's
decoded record for encrypted ones (which requires a password and a
successful unlock) — yields a credential with non-empty key and salt. -/
def specCredentialAvailable (fs : BackupDirFS) (pw : String) : Bool :=
  match fs.infoPlist, fs.manifestPlist with
  | some info, some man =>
    if strStarts "12." info.ProductVersion then false
    else
      match chosenRestrictions fs with
      | none => false
      | some parsed =>
        if isEncrypted man.IsEncrypted then
          if pw = "" then false
          else
            match fs.unlock with
            | .unlocked r => !r.Key.isEmpty && !r.Salt.isEmpty
            | _ => false
        else
          match parsed with
          | .ok r => !r.Key.isEmpty && !r.Salt.isEmpty
          | .error _ => false
  | _, _ => false

/-- Sanity condition on the modelled directory: error strings produced by
the plist decoder and by the unlocker's `Load` are never empty (they are Go
`error.Error()` results). -/
def fsErrorsNonempty (fs : BackupDirFS) : Prop :=
  (∀ e, fs.topRestrictions = some (.error e) → e ≠ "") ∧
  (∀ e, fs.shardRestrictions = some (.error e) → e ≠ "") ∧
  (∀ m, fs.unlock = .loadFail m → m ≠ "")

theorem chosen_error_nonempty {fs : BackupDirFS} (hwf : fsErrorsNonempty fs)
    {e : String} (h : chosenRestrictions fs = some (.error e)) : e ≠ "" := by
  rw [chosenRestrictions] at h
  by_cases ht : fs.topRestrictions.isSome
  · rw [if_pos ht] at h
    exact hwf.1 e h
  · rw [if_neg ht] at h
    exact hwf.2.1 e h

theorem append_ne_empty (s t : String) (hs : s.length ≠ 0) : s ++ t ≠ "" := by
  intro h
  have hlen := congrArg String.length h
  rw [String.length_append] at hlen
  have hz : ("" : String).length = 0 := rfl
  rw [hz] at hlen
  omega

/-- C6: a record produced by `loadBackup` carries a credential (non-empty
`Restrictions.Key` and `Restrictions.Salt`) if and only if a readable,
well-formed restriction file was found for that backup; and a record whose
restriction file is missing, malformed (unencrypted, decode error), or not
decryptable (encrypted, and no password or no successful unlock) carries a
non-empty terminal status and no credential. -/
theorem loadBackup_credential_invariant (backupDir pw : String)
    (fs : BackupDirFS) (b : BackupData)
    (hwf : fsErrorsNonempty fs)
    (hld : loadBackup backupDir fs pw = some b) :
    ((b.Restrictions.Key ≠ [] ∧ b.Restrictions.Salt ≠ []) ↔
        specCredentialAvailable fs pw = true) ∧
    (chosenRestrictions fs = none →
      b.Status ≠ "" ∧ b.Restrictions = ⟨[], []⟩) ∧
    (∀ man, fs.manifestPlist = some man → isEncrypted man.IsEncrypted = false →
      ∀ e, chosenRestrictions fs = some (.error e) →
        b.Status ≠ "" ∧ b.Restrictions = ⟨[], []⟩) ∧
    (∀ man, fs.manifestPlist = some man → isEncrypted man.IsEncrypted = true →
      chosenRestrictions fs ≠ none →
      (pw = "" ∨ ∀ r, fs.unlock ≠ .unlocked r) →
        b.Status ≠ "" ∧ b.Restrictions = ⟨[], []⟩) := by
  cases hfi : fs.infoPlist with
  | none =>
    rw [loadBackup, hfi] at hld
    exact Option.noConfusion hld
  | some info =>
  cases hfm : fs.manifestPlist with
  | none =>
    rw [loadBackup, hfi, hfm] at hld
    exact Option.noConfusion hld
  | some man =>
  rw [loadBackup, hfi, hfm] at hld
  simp only [] at hld
  by_cases h12 : strStarts "12." info.ProductVersion = true
  · rw [if_pos h12] at hld
    have hb := Option.some.inj hld
    subst hb
    refine ⟨?_, ?_, ?_, ?_⟩
    · simp [specCredentialAvailable, hfi, hfm, h12]
    · intro _
      exact ⟨by simp [msgIos12], rfl⟩
    · intro man' hman' henc' e hch2
      exact ⟨by simp [msgIos12], rfl⟩
    · intro man' hman' henc' hne hbad
      exact ⟨by simp [msgIos12], rfl⟩
  · rw [if_neg h12] at hld
    have h12' : strStarts "12." info.ProductVersion = false := Bool.eq_false_iff.mpr h12
    cases hch : chosenRestrictions fs with
    | none =>
      rw [hch] at hld
      have hb := Option.some.inj hld
      subst hb
      refine ⟨?_, ?_, ?_, ?_⟩
      · simp [specCredentialAvailable, hfi, hfm, h12', hch]
      · intro _
        exact ⟨by simp [msgNoPasscode], rfl⟩
      · intro man' hman' henc' e hch2
        exact Option.noConfusion hch2
      · intro man' hman' henc' hne hbad
        exact absurd rfl hne
    | some parsed =>
      rw [hch] at hld
      simp only [] at hld
      by_cases henc : isEncrypted man.IsEncrypted = true
      · rw [if_pos henc] at hld
        by_cases hpw : pw = ""
        · rw [decrypt.eq_def, if_pos hpw] at hld
          have hb := Option.some.inj hld
          subst hb
          refine ⟨?_, ?_, ?_, ?_⟩
          · simp [specCredentialAvailable, hfi, hfm, h12', hch, henc, hpw]
          · intro hc
            exact Option.noConfusion hc
          · intro man' hman' henc' e hch2
            cases Option.some.inj hman'
            rw [henc] at henc'
            exact Bool.noConfusion henc'
          · intro _ _ _ _ _
            exact ⟨by simp [msgIsEncrypted], rfl⟩
        · rw [decrypt.eq_def, if_neg hpw] at hld
          cases hu : fs.unlock with
          | openFail m =>
            rw [hu] at hld
            have hb := Option.some.inj hld
            subst hb
            refine ⟨?_, ?_, ?_, ?_⟩
            · simp [specCredentialAvailable, hfi, hfm, h12', hch, henc, hpw, hu]
            · intro hc
              exact Option.noConfusion hc
            · intro man' hman' henc' e hch2
              cases Option.some.inj hman'
              rw [henc] at henc'
              exact Bool.noConfusion henc'
            · intro _ _ _ _ _
              exact ⟨append_ne_empty _ _ (by decide), rfl⟩
          | wrongPassword =>
            rw [hu] at hld
            have hb := Option.some.inj hld
            subst hb
            refine ⟨?_, ?_, ?_, ?_⟩
            · simp [specCredentialAvailable, hfi, hfm, h12', hch, henc, hpw, hu]
            · intro hc
              exact Option.noConfusion hc
            · intro man' hman' henc' e hch2
              cases Option.some.inj hman'
              rw [henc] at henc'
              exact Bool.noConfusion henc'
            · intro _ _ _ _ _
              exact ⟨by simp [msgIncorrectPassword], rfl⟩
          | loadFail m =>
            rw [hu] at hld
            have hb := Option.some.inj hld
            subst hb
            refine ⟨?_, ?_, ?_, ?_⟩
            · simp [specCredentialAvailable, hfi, hfm, h12', hch, henc, hpw, hu]
            · intro hc
              exact Option.noConfusion hc
            · intro man' hman' henc' e hch2
              cases Option.some.inj hman'
              rw [henc] at henc'
              exact Bool.noConfusion henc'
            · intro _ _ _ _ _
              exact ⟨hwf.2.2 m hu, rfl⟩
          | recordAbsent =>
            rw [hu] at hld
            have hb := Option.some.inj hld
            subst hb
            refine ⟨?_, ?_, ?_, ?_⟩
            · simp [specCredentialAvailable, hfi, hfm, h12', hch, henc, hpw, hu]
            · intro hc
              exact Option.noConfusion hc
            · intro man' hman' henc' e hch2
              cases Option.some.inj hman'
              rw [henc] at henc'
              exact Bool.noConfusion henc'
            · intro _ _ _ _ _
              exact ⟨by simp [msgNoPassword], rfl⟩
          | readFail =>
            rw [hu] at hld
            have hb := Option.some.inj hld
            subst hb
            refine ⟨?_, ?_, ?_, ?_⟩
            · simp [specCredentialAvailable, hfi, hfm, h12', hch, henc, hpw, hu]
            · intro hc
              exact Option.noConfusion hc
            · intro man' hman' henc' e hch2
              cases Option.some.inj hman'
              rw [henc] at henc'
              exact Bool.noConfusion henc'
            · intro _ _ _ _ _
              exact ⟨by simp [msgIncorrectPassword], rfl⟩
          | decodeFail =>
            rw [hu] at hld
            have hb := Option.some.inj hld
            subst hb
            refine ⟨?_, ?_, ?_, ?_⟩
            · simp [specCredentialAvailable, hfi, hfm, h12', hch, henc, hpw, hu]
            · intro hc
              exact Option.noConfusion hc
            · intro man' hman' henc' e hch2
              cases Option.some.inj hman'
              rw [henc] at henc'
              exact Bool.noConfusion henc'
            · intro _ _ _ _ _
              exact ⟨by simp [msgIncorrectPassword], rfl⟩
          | unlocked r =>
            rw [hu] at hld
            have hb := Option.some.inj hld
            subst hb
            refine ⟨?_, ?_, ?_, ?_⟩
            · simp [specCredentialAvailable, hfi, hfm, h12', hch, henc, hpw, hu,
                    List.isEmpty_iff]
            · intro hc
              exact Option.noConfusion hc
            · intro man' hman' henc' e hch2
              cases Option.some.inj hman'
              rw [henc] at henc'
              exact Bool.noConfusion henc'
            · intro man' hman' henc' hne hbad
              cases hbad with
              | inl h => exact absurd h hpw
              | inr h => exact absurd rfl (h r)
      · rw [if_neg henc] at hld
        have henc2 : isEncrypted man.IsEncrypted = false := Bool.eq_false_iff.mpr henc
        cases parsed with
        | error e =>
          have hb := Option.some.inj hld
          subst hb
          refine ⟨?_, ?_, ?_, ?_⟩
          · simp [specCredentialAvailable, hfi, hfm, h12', hch, henc2]
          · intro hc
            exact Option.noConfusion hc
          · intro man' hman' henc' e2 hch2
            exact ⟨chosen_error_nonempty hwf hch, rfl⟩
          · intro man' hman' henc' hne hbad
            cases Option.some.inj hman'
            rw [henc2] at henc'
            exact Bool.noConfusion henc'
        | ok r =>
          have hb := Option.some.inj hld
          subst hb
          refine ⟨?_, ?_, ?_, ?_⟩
          · simp [specCredentialAvailable, hfi, hfm, h12', hch, henc2,
                  List.isEmpty_iff]
          · intro hc
            exact Option.noConfusion hc
          · intro man' hman' henc' e hch2
            exact Except.noConfusion (Option.some.inj hch2)
          · intro man' hman' henc' hne hbad
            cases Option.some.inj hman'
            rw [henc2] at henc'
            exact Bool.noConfusion henc'

/-- A concrete directory for the invariant witness: unencrypted backup with
a well-formed credential file at the top-level location. -/
def demoFS : BackupDirFS :=
  ⟨some ⟨0, "", "", "", "10.0"⟩, some ⟨.missing⟩, some (.ok ⟨[1], [2]⟩),
   none, .recordAbsent⟩

/-- The record `loadBackup` produces for `demoFS`. -/
def demoOut : BackupData :=
  ⟨"d", "", chosenPath "d" demoFS, ⟨0, "", "", "", "10.0"⟩, ⟨.missing⟩, ⟨[1], [2]⟩⟩

/-- Witness: the credential invariant evaluated on `demoFS`. -/
theorem loadBackup_credential_invariant_witness :
    ((demoOut.Restrictions.Key ≠ [] ∧ demoOut.Restrictions.Salt ≠ []) ↔
        specCredentialAvailable demoFS "" = true) ∧
    (chosenRestrictions demoFS = none →
      demoOut.Status ≠ "" ∧ demoOut.Restrictions = ⟨[], []⟩) ∧
    (∀ man, demoFS.manifestPlist = some man → isEncrypted man.IsEncrypted = false →
      ∀ e, chosenRestrictions demoFS = some (.error e) →
        demoOut.Status ≠ "" ∧ demoOut.Restrictions = ⟨[], []⟩) ∧
    (∀ man, demoFS.manifestPlist = some man → isEncrypted man.IsEncrypted = true →
      chosenRestrictions demoFS ≠ none →
      ("" = "" ∨ ∀ r, demoFS.unlock ≠ .unlocked r) →
        demoOut.Status ≠ "" ∧ demoOut.Restrictions = ⟨[], []⟩) :=
  loadBackup_credential_invariant "d" "" demoFS demoOut
    ⟨fun _ h => Except.noConfusion (Option.some.inj h),
     fun _ h => Option.noConfusion h,
     fun _ h => UnlockOutcome.noConfusion h⟩
    (by decide)
